import Mathlib

/-!
Verification of the Huntington-Hill apportionment engine of
`ec-apportionment-pyqt` (`src/source/bar_chart.py`, `ECPlot.animate`, together
with the data model of `src/source/types.py`).

The engine's per-step work in `ECPlot.animate` is:
  1. apply the pending seat award from the previous frame: every entity whose
     `max_pri` flag is set gets `reps += 1` and the flag cleared;
  2. for every entity recompute `priority = pop * (1 / sqrt(reps * (reps+1)))`
     and `pop_per_rep = pop / reps`;
  3. select `max(enumerate(state_info_list), key=extract_priority_tuple)` and
     set that entity's `max_pri` flag (the seat itself is granted at the start
     of the next frame).
Statistics (`update_plt_1`) are numpy `mean`/`std`, Python `max - min`, and
`statistics.geometric_mean` over the `pop_per_rep` values.

Machine floats are embedded as exact arithmetic: populations and seat counts
are naturals, `pop_per_rep` is a rational, and the priority value lives in the
real numbers.  The priority comparison used for the selection is embedded by
the equivalent rational comparison of squared priorities (`keyQ`); the bridge
lemma `priGt_iff_priority_lt` proves that this comparison agrees with the
comparison of the real priority values whenever every entity has at least one
seat, which holds in every reachable state.
-/

/-- Mirror of the `StateInfo` `TypedDict` of `src/source/types.py`: name,
population, current representative count, the derived people-per-representative
value, and the `max_pri` flag marking the entity selected in the current frame
(whose extra seat is granted at the start of the next frame). -/
structure StateInfo where
  name : String
  pop : Nat
  reps : Nat
  pop_per_rep : Rat
  max_pri : Bool
deriving DecidableEq, Repr

/-- Default element used with `List.getD`. -/
def dState : StateInfo :=
  { name := "", pop := 0, reps := 0, pop_per_rep := 0, max_pri := false }

/-- First loop of `ECPlot.animate`: an entity flagged `max_pri` receives the
representative awarded in the previous frame (`reps += 1`) and the flag is
cleared; all other entities are untouched. -/
def applyPending (s : StateInfo) : StateInfo :=
  if s.max_pri then { s with reps := s.reps + 1, max_pri := false } else s

/-- Second loop of `ECPlot.animate`, the part that stores
`pop_per_rep = pop / reps` for the entity. -/
def computeDerived (s : StateInfo) : StateInfo :=
  { s with pop_per_rep := (s.pop : Rat) / (s.reps : Rat) }

/-- The priority value the second loop of `ECPlot.animate` stores:
`state_info["priority"] = state_info["pop"] * (1 / math.sqrt(reps * fut_reps))`
with `fut_reps = reps + 1`.  The stored float is always rewritten by this loop
before any read, so the embedding derives it from `pop` and `reps`. -/
noncomputable def priority (s : StateInfo) : Real :=
  (s.pop : Real) * (1 / Real.sqrt ((s.reps : Real) * ((s.reps : Real) + 1)))

/-- Squared-priority surrogate `pop^2 / (reps * (reps + 1))` as an exact
rational: for entities with at least one seat, comparing `keyQ` values is
equivalent to comparing `priority` values (`priGt_iff_priority_lt`). -/
def keyQ (s : StateInfo) : Rat :=
  ((s.pop : Rat)) ^ 2 / ((s.reps : Rat) * ((s.reps : Rat) + 1))

/-- Modelled from the spec: the comparison performed by
`max(enumerate(self.state_info_list), key=extract_priority_tuple)`.
`extract_priority_tuple` lives in `source/tools.py`, which is absent from the
repository snapshot; per the spec the key is the entity's priority value and
index order is never part of the key, so two entities compare by priority
alone.  `priGt a b` decides `priority b < priority a` by cross-multiplying the
squared priorities, which is equivalent whenever both entities hold at least
one seat (`priGt_iff_priority_lt`), as every reachable registry state does. -/
def priGt (a b : StateInfo) : Bool :=
  decide (b.pop ^ 2 * (a.reps * (a.reps + 1)) < a.pop ^ 2 * (b.reps * (b.reps + 1)))

/-- The left-to-right scan of Python's `max`: the champion (index, entity) is
replaced exactly when a later entity's key is strictly greater, so the first
of several equal maxima is kept.  `i` is the absolute index of the head of the
remaining list. -/
def scanMaxP (best : Nat × StateInfo) (i : Nat) : List StateInfo → Nat × StateInfo
  | [] => best
  | x :: xs => scanMaxP (if priGt x best.2 then (i, x) else best) (i + 1) xs

/-- `max_index` of `ECPlot.animate`: index returned by
`max(enumerate(state_info_list), key=extract_priority_tuple)`. -/
def maxIndex : List StateInfo → Nat
  | [] => 0
  | x :: xs => (scanMaxP (0, x) 1 xs).1

/-- `self.state_info_list[max_index]["max_pri"] = True`. -/
def setMaxPri : List StateInfo → Nat → List StateInfo
  | [], _ => []
  | x :: xs, 0 => { x with max_pri := true } :: xs
  | x :: xs, n + 1 => x :: setMaxPri xs n

/-- The first loop of `ECPlot.animate` over the whole registry. -/
def phaseA (l : List StateInfo) : List StateInfo := l.map applyPending

/-- The second loop of `ECPlot.animate` over the whole registry. -/
def phaseB (l : List StateInfo) : List StateInfo := l.map computeDerived

/-- Registry state at the moment the selection of `ECPlot.animate` runs. -/
def phaseAB (l : List StateInfo) : List StateInfo := phaseB (phaseA l)

/-- One full call of `ECPlot.animate` restricted to its state change: apply the
pending award, recompute the derived values, then flag the entity with maximal
priority (first maximum wins). -/
def animateStep (l : List StateInfo) : List StateInfo :=
  setMaxPri (phaseAB l) (maxIndex (phaseAB l))

/-- `k` consecutive calls of `ECPlot.animate`; `runSteps l (k+1)` is the state
shown by the snapshot of step `k` (steps are numbered from 0). -/
def runSteps (l : List StateInfo) : Nat → List StateInfo
  | 0 => l
  | k + 1 => animateStep (runSteps l k)

/-- Total number of representatives across the registry. -/
def sumReps (l : List StateInfo) : Nat := (l.map (fun s => s.reps)).sum

/-- Number of entities whose `max_pri` flag is set. -/
def countFlags (l : List StateInfo) : Nat := l.countP (fun s => s.max_pri)

/-- `extract_pop_per_rep` of `source/tools.py` as used by `update_plt_1`:
the list of `pop_per_rep` values in registry order. -/
def extract_pop_per_rep (l : List StateInfo) : List Rat :=
  l.map (fun s => s.pop_per_rep)

/-- `np.mean`, per its documented semantics: sum divided by length. -/
def np_mean (xs : List Rat) : Rat := xs.sum / (xs.length : Rat)

/-- `np.std`, per its documented semantics: the square root of the mean of the
squared deviations from the mean (population standard deviation). -/
noncomputable def np_std (xs : List Rat) : Real :=
  Real.sqrt ((np_mean (xs.map (fun x => (x - np_mean xs) ^ 2)) : Rat))

/-- Python `max` over a nonempty list of numbers. -/
def listMax : List Rat → Rat
  | [] => 0
  | x :: xs => xs.foldl max x

/-- Python `min` over a nonempty list of numbers. -/
def listMin : List Rat → Rat
  | [] => 0
  | x :: xs => xs.foldl min x

/-- `max(pop_per_rep_list) - min(pop_per_rep_list)` of `update_plt_1`. -/
def range_stat (xs : List Rat) : Rat := listMax xs - listMin xs

/-- Guard of Python's `statistics.geometric_mean`: it raises unless the data is
nonempty and every value is strictly positive. -/
def geoMeanOk (xs : List Rat) : Bool := !xs.isEmpty && xs.all (fun x => 0 < x)

/-- Value of Python's `statistics.geometric_mean`, per its documented
semantics: the exponential of the arithmetic mean of the logarithms. -/
noncomputable def geoMeanVal (xs : List Rat) : Real :=
  Real.exp ((xs.map (fun q : Rat => Real.log ((q : Real)))).sum / (xs.length : Real))

/-- Python's `statistics.geometric_mean` as called by `update_plt_1`,
modelled from its documented semantics; the error case is the spec's
`DomainError`. -/
noncomputable def geometric_mean (xs : List Rat) : Except String Real :=
  if geoMeanOk xs then Except.ok (geoMeanVal xs) else Except.error "DomainError"

/-- Modelled from the spec: `parse_states` lives in `source/tools.py`, which is
absent from the repository snapshot.  Per the spec's Entity Registry contract
(`initialize`), it fails with `InvalidInputError` when the sequence is empty or
some population is non-positive, and otherwise builds the registry with every
entity starting at one seat and no pending award. -/
def parse_states (entries : List (String × Int)) : Except String (List StateInfo) :=
  if entries.isEmpty then Except.error "InvalidInputError"
  else if entries.any (fun e => decide (e.2 ≤ 0)) then Except.error "InvalidInputError"
  else Except.ok (entries.map (fun e =>
    { name := e.1, pop := e.2.toNat, reps := 1, pop_per_rep := (e.2 : Rat),
      max_pri := false }))

/-- Agreement of two registry entries on every field the step transition
reads: `pop_per_rep` is the one stored field the step overwrites before any
read, so it is excluded. -/
def coreEq (a b : StateInfo) : Prop :=
  a.name = b.name ∧ a.pop = b.pop ∧ a.reps = b.reps ∧ a.max_pri = b.max_pri

/-- The two-entity scenario of the spec: A with population 200 and B with
population 100, both starting at one seat. -/
def init2 : List StateInfo :=
  [ { name := "A", pop := 200, reps := 1, pop_per_rep := 200, max_pri := false },
    { name := "B", pop := 100, reps := 1, pop_per_rep := 100, max_pri := false } ]

/-- Two entities with equal population: their priorities tie on every step. -/
def tie2 : List StateInfo :=
  [ { name := "A", pop := 100, reps := 1, pop_per_rep := 100, max_pri := false },
    { name := "B", pop := 100, reps := 1, pop_per_rep := 100, max_pri := false } ]

/-! ### Structural lemmas about the step phases -/

theorem applyPending_max_pri (s : StateInfo) : (applyPending s).max_pri = false := by
  unfold applyPending
  by_cases h : s.max_pri <;> simp [h]

theorem applyPending_pop (s : StateInfo) : (applyPending s).pop = s.pop := by
  unfold applyPending
  by_cases h : s.max_pri <;> simp [h]

theorem applyPending_name (s : StateInfo) : (applyPending s).name = s.name := by
  unfold applyPending
  by_cases h : s.max_pri <;> simp [h]

theorem applyPending_reps_le (s : StateInfo) : s.reps ≤ (applyPending s).reps := by
  unfold applyPending
  by_cases h : s.max_pri <;> simp [h]

theorem applyPending_of_flag (s : StateInfo) (h : s.max_pri = true) :
    applyPending s = { s with reps := s.reps + 1, max_pri := false } := by
  unfold applyPending
  simp [h]

theorem applyPending_of_not_flag (s : StateInfo) (h : s.max_pri = false) :
    applyPending s = s := by
  unfold applyPending
  simp [h]

theorem computeDerived_reps (s : StateInfo) : (computeDerived s).reps = s.reps := rfl

theorem computeDerived_pop (s : StateInfo) : (computeDerived s).pop = s.pop := rfl

theorem computeDerived_max_pri (s : StateInfo) : (computeDerived s).max_pri = s.max_pri := rfl

theorem computeDerived_name (s : StateInfo) : (computeDerived s).name = s.name := rfl

theorem computeDerived_pop_per_rep (s : StateInfo) :
    (computeDerived s).pop_per_rep = (s.pop : Rat) / (s.reps : Rat) := rfl

theorem applyPending_dState : applyPending dState = dState := rfl

theorem computeDerived_dState : computeDerived dState = dState := by
  unfold computeDerived dState
  norm_num

theorem map_getD_of_fix (f : StateInfo → StateInfo) (hf : f dState = dState) :
    ∀ (l : List StateInfo) (j : Nat), (l.map f).getD j dState = f (l.getD j dState)
  | [], j => by simp [hf]
  | x :: xs, 0 => by simp
  | x :: xs, j + 1 => by
    simp only [List.map_cons, List.getD_cons_succ]
    exact map_getD_of_fix f hf xs j

theorem phaseA_getD (l : List StateInfo) (j : Nat) :
    (phaseA l).getD j dState = applyPending (l.getD j dState) :=
  map_getD_of_fix applyPending applyPending_dState l j

theorem phaseB_getD (l : List StateInfo) (j : Nat) :
    (phaseB l).getD j dState = computeDerived (l.getD j dState) :=
  map_getD_of_fix computeDerived computeDerived_dState l j

theorem setMaxPri_length : ∀ (l : List StateInfo) (i : Nat),
    (setMaxPri l i).length = l.length
  | [], _ => rfl
  | _ :: _, 0 => rfl
  | _ :: xs, n + 1 => by
    simp only [setMaxPri, List.length_cons, setMaxPri_length xs n]

theorem phaseA_length (l : List StateInfo) : (phaseA l).length = l.length := by
  simp [phaseA]

theorem phaseB_length (l : List StateInfo) : (phaseB l).length = l.length := by
  simp [phaseB]

theorem phaseAB_length (l : List StateInfo) : (phaseAB l).length = l.length := by
  simp [phaseAB, phaseA_length, phaseB_length]

theorem animateStep_length (l : List StateInfo) : (animateStep l).length = l.length := by
  simp [animateStep, setMaxPri_length, phaseAB_length]

theorem runSteps_length (l : List StateInfo) : ∀ k, (runSteps l k).length = l.length
  | 0 => rfl
  | k + 1 => by
    simp only [runSteps, animateStep_length, runSteps_length l k]

theorem setMaxPri_getD_reps : ∀ (l : List StateInfo) (i j : Nat),
    ((setMaxPri l i).getD j dState).reps = (l.getD j dState).reps
  | [], _, _ => rfl
  | _ :: _, 0, 0 => rfl
  | _ :: _, 0, _ + 1 => rfl
  | _ :: _, _ + 1, 0 => rfl
  | _ :: xs, i + 1, j + 1 => by
    simp only [setMaxPri, List.getD_cons_succ]
    exact setMaxPri_getD_reps xs i j

theorem setMaxPri_getD_self : ∀ (l : List StateInfo) (i : Nat), i < l.length →
    (setMaxPri l i).getD i dState = { l.getD i dState with max_pri := true }
  | [], i, h => by simp at h
  | x :: xs, 0, _ => rfl
  | x :: xs, i + 1, h => by
    simp only [setMaxPri, List.getD_cons_succ]
    exact setMaxPri_getD_self xs i (by simpa using h)

theorem setMaxPri_getD_ne : ∀ (l : List StateInfo) (i j : Nat), j ≠ i →
    (setMaxPri l i).getD j dState = l.getD j dState
  | [], _, _, _ => rfl
  | x :: xs, 0, 0, h => absurd rfl h
  | x :: xs, 0, j + 1, _ => rfl
  | x :: xs, i + 1, 0, _ => rfl
  | x :: xs, i + 1, j + 1, h => by
    simp only [setMaxPri, List.getD_cons_succ]
    exact setMaxPri_getD_ne xs i j (fun hji => h (by omega))

theorem mem_setMaxPri : ∀ (l : List StateInfo) (i : Nat) (s : StateInfo),
    s ∈ setMaxPri l i → s ∈ l ∨ ∃ t ∈ l, s = { t with max_pri := true }
  | [], _, s, h => by simp [setMaxPri] at h
  | x :: xs, 0, s, h => by
    rcases List.mem_cons.mp h with h1 | h2
    · exact Or.inr ⟨x, List.mem_cons_self x xs, h1⟩
    · exact Or.inl (List.mem_cons_of_mem x h2)
  | x :: xs, i + 1, s, h => by
    rcases List.mem_cons.mp h with h1 | h2
    · exact Or.inl (h1 ▸ List.mem_cons_self x xs)
    · rcases mem_setMaxPri xs i s h2 with h3 | ⟨t, ht, hst⟩
      · exact Or.inl (List.mem_cons_of_mem x h3)
      · exact Or.inr ⟨t, List.mem_cons_of_mem x ht, hst⟩

/-! ### Seat totals and flag counts -/

theorem sumReps_phaseA : ∀ l : List StateInfo, sumReps (phaseA l) = sumReps l + countFlags l
  | [] => rfl
  | x :: xs => by
    have ih := sumReps_phaseA xs
    simp only [sumReps, countFlags, phaseA] at ih
    simp only [sumReps, countFlags, phaseA, List.map_cons, List.sum_cons, List.countP_cons]
    rw [ih]
    by_cases h : x.max_pri = true
    · rw [applyPending_of_flag x h]
      simp [h] <;> omega
    · have hf : x.max_pri = false := by simpa using h
      rw [applyPending_of_not_flag x hf]
      simp [hf] <;> omega

theorem countFlags_phaseA (l : List StateInfo) : countFlags (phaseA l) = 0 := by
  simp only [countFlags, phaseA]
  rw [List.countP_eq_zero]
  intro s hs
  rcases List.mem_map.mp hs with ⟨t, _, rfl⟩
  simp [applyPending_max_pri]

theorem sumReps_phaseB (l : List StateInfo) : sumReps (phaseB l) = sumReps l := by
  simp only [sumReps, phaseB, List.map_map]
  congr 1

theorem countFlags_phaseB (l : List StateInfo) : countFlags (phaseB l) = countFlags l := by
  simp only [countFlags, phaseB]
  rw [List.countP_map]
  congr 1

theorem sumReps_setMaxPri : ∀ (l : List StateInfo) (i : Nat),
    sumReps (setMaxPri l i) = sumReps l
  | [], _ => rfl
  | x :: xs, 0 => rfl
  | x :: xs, i + 1 => by
    simp only [setMaxPri, sumReps, List.map_cons, List.sum_cons]
    have ih := sumReps_setMaxPri xs i
    simp only [sumReps] at ih
    omega

theorem countFlags_setMaxPri : ∀ (l : List StateInfo) (i : Nat), i < l.length →
    countFlags l = 0 → countFlags (setMaxPri l i) = 1
  | [], i, h, _ => by simp at h
  | x :: xs, 0, _, h0 => by
    simp only [countFlags, List.countP_cons] at h0
    have hxs : xs.countP (fun s => s.max_pri) = 0 := by omega
    simp [countFlags, setMaxPri, List.countP_cons, hxs]
  | x :: xs, i + 1, h, h0 => by
    simp only [countFlags, List.countP_cons] at h0
    have hxf : x.max_pri = false := by
      by_cases hb : x.max_pri = true
      · simp [hb] at h0
      · simpa using hb
    have hxs : xs.countP (fun s => s.max_pri) = 0 := by omega
    have ih := countFlags_setMaxPri xs i (by simpa using h) (by simpa [countFlags] using hxs)
    simp only [countFlags] at ih
    simp [countFlags, setMaxPri, List.countP_cons, hxf, ih]

theorem scanMaxP_fst_lt : ∀ (xs : List StateInfo) (best : Nat × StateInfo) (i n : Nat),
    best.1 < n → i + xs.length ≤ n → (scanMaxP best i xs).1 < n
  | [], best, i, n, hb, _ => hb
  | x :: xs, best, i, n, hb, hi => by
    simp only [scanMaxP]
    by_cases h : priGt x best.2
    · simp only [h, if_true]
      exact scanMaxP_fst_lt xs (i, x) (i + 1) n (by simp at hi ⊢; omega) (by simp at hi ⊢; omega)
    · simp only [h, if_false]
      exact scanMaxP_fst_lt xs best (i + 1) n hb (by simp at hi ⊢; omega)

theorem maxIndex_lt_length : ∀ l : List StateInfo, l ≠ [] → maxIndex l < l.length
  | [], h => absurd rfl h
  | x :: xs, _ => by
    simp only [maxIndex, List.length_cons]
    exact scanMaxP_fst_lt xs (0, x) 1 (xs.length + 1) (by omega) (by omega)

/-! ### Bridge between the executable comparison and the real priority value -/

set_option linter.unnecessarySeqFocus false

theorem priority_eq_div (s : StateInfo) :
    priority s = (s.pop : Real) / Real.sqrt ((s.reps : Real) * ((s.reps : Real) + 1)) := by
  unfold priority
  rw [mul_one_div]

theorem priGt_iff_keyQ (a b : StateInfo) (ha : 1 ≤ a.reps) (hb : 1 ≤ b.reps) :
    priGt a b = true ↔ keyQ b < keyQ a := by
  have hwa : (0 : Rat) < (a.reps : Rat) * ((a.reps : Rat) + 1) := by
    have : (0 : Rat) < (a.reps : Rat) := by exact_mod_cast ha
    nlinarith
  have hwb : (0 : Rat) < (b.reps : Rat) * ((b.reps : Rat) + 1) := by
    have : (0 : Rat) < (b.reps : Rat) := by exact_mod_cast hb
    nlinarith
  unfold priGt keyQ
  rw [decide_eq_true_eq, div_lt_div_iff hwb hwa]
  constructor <;> intro h <;> exact_mod_cast h

theorem keyQ_cast (s : StateInfo) :
    ((keyQ s : Rat) : Real) = (s.pop : Real) ^ 2 / ((s.reps : Real) * ((s.reps : Real) + 1)) := by
  unfold keyQ
  push_cast
  ring

theorem keyQ_cast_eq_priority_sq (s : StateInfo) :
    ((keyQ s : Rat) : Real) = priority s ^ 2 := by
  have hw : (0 : Real) ≤ (s.reps : Real) * ((s.reps : Real) + 1) := by positivity
  rw [keyQ_cast]
  unfold priority
  rw [mul_pow, div_pow, one_pow, Real.sq_sqrt hw, mul_one_div]

theorem keyQ_eq_of_priority_eq (a b : StateInfo) (h : priority a = priority b) :
    keyQ a = keyQ b := by
  have hc : ((keyQ a : Rat) : Real) = ((keyQ b : Rat) : Real) := by
    rw [keyQ_cast_eq_priority_sq, keyQ_cast_eq_priority_sq, h]
  exact_mod_cast hc

theorem keyQ_lt_iff_priority_lt (a b : StateInfo) (ha : 1 ≤ a.reps) (hb : 1 ≤ b.reps) :
    keyQ b < keyQ a ↔ priority b < priority a := by
  have hwa : (0 : Real) < (a.reps : Real) * ((a.reps : Real) + 1) := by
    have : (0 : Real) < (a.reps : Real) := by exact_mod_cast ha
    nlinarith
  have hwb : (0 : Real) < (b.reps : Real) * ((b.reps : Real) + 1) := by
    have : (0 : Real) < (b.reps : Real) := by exact_mod_cast hb
    nlinarith
  have hsa : 0 < Real.sqrt ((a.reps : Real) * ((a.reps : Real) + 1)) := Real.sqrt_pos.mpr hwa
  have hsb : 0 < Real.sqrt ((b.reps : Real) * ((b.reps : Real) + 1)) := Real.sqrt_pos.mpr hwb
  have hcast : (keyQ b < keyQ a) ↔ ((keyQ b : Rat) : Real) < ((keyQ a : Rat) : Real) := by
    exact_mod_cast Iff.rfl
  rw [hcast, keyQ_cast, keyQ_cast, priority_eq_div, priority_eq_div,
    div_lt_div_iff hwb hwa, div_lt_div_iff hsb hsa]
  have sq_iff : ∀ x y : Real, 0 ≤ x → 0 ≤ y → (x ^ 2 < y ^ 2 ↔ x < y) := by
    intro x y hx hy
    constructor
    · intro h
      by_contra hcon
      push_neg at hcon
      nlinarith
    · intro h
      nlinarith
  have ea : ((b.pop : Real) * Real.sqrt ((a.reps : Real) * ((a.reps : Real) + 1))) ^ 2
      = (b.pop : Real) ^ 2 * ((a.reps : Real) * ((a.reps : Real) + 1)) := by
    rw [mul_pow, Real.sq_sqrt hwa.le]
  have eb : ((a.pop : Real) * Real.sqrt ((b.reps : Real) * ((b.reps : Real) + 1))) ^ 2
      = (a.pop : Real) ^ 2 * ((b.reps : Real) * ((b.reps : Real) + 1)) := by
    rw [mul_pow, Real.sq_sqrt hwb.le]
  rw [← ea, ← eb, sq_iff _ _ (by positivity) (by positivity)]

theorem priGt_iff_priority_lt (a b : StateInfo) (ha : 1 ≤ a.reps) (hb : 1 ≤ b.reps) :
    priGt a b = true ↔ priority b < priority a :=
  (priGt_iff_keyQ a b ha hb).trans (keyQ_lt_iff_priority_lt a b ha hb)

theorem keyQ_le_iff_priority_le (a b : StateInfo) (ha : 1 ≤ a.reps) (hb : 1 ≤ b.reps) :
    keyQ b ≤ keyQ a ↔ priority b ≤ priority a := by
  rw [← not_lt, ← not_lt, keyQ_lt_iff_priority_lt b a hb ha]

/-! ### Characterization of the first-maximum-wins scan -/

theorem getD_mem : ∀ (l : List StateInfo) (j : Nat), j < l.length → l.getD j dState ∈ l
  | [], _, h => by simp at h
  | x :: xs, 0, _ => List.mem_cons_self x xs
  | x :: xs, j + 1, h => List.mem_cons_of_mem x (getD_mem xs j (by simpa using h))

theorem scanMaxP_spec (xs : List StateInfo) : ∀ (b : Nat × StateInfo) (i : Nat), b.1 < i →
    (scanMaxP b i xs = b ∨
      ∃ j, j < xs.length ∧ (scanMaxP b i xs).1 = i + j ∧
        (scanMaxP b i xs).2 = xs.getD j dState)
  ∧ (1 ≤ b.2.reps → (∀ s ∈ xs, 1 ≤ s.reps) →
      keyQ b.2 ≤ keyQ (scanMaxP b i xs).2
    ∧ (∀ j, j < xs.length → keyQ (xs.getD j dState) ≤ keyQ (scanMaxP b i xs).2)
    ∧ ((scanMaxP b i xs).1 ≠ b.1 → keyQ b.2 < keyQ (scanMaxP b i xs).2)
    ∧ (∀ j, j < xs.length → i + j < (scanMaxP b i xs).1 →
        keyQ (xs.getD j dState) < keyQ (scanMaxP b i xs).2)) := by
  induction xs with
  | nil =>
    intro b i hbi
    refine ⟨Or.inl rfl, fun _ _ => ⟨le_refl _, ?_, ?_, ?_⟩⟩
    · intro j hj
      simp at hj
    · intro hne
      simp [scanMaxP] at hne
    · intro j hj
      simp at hj
  | cons x xs ih =>
    intro b i hbi
    simp only [scanMaxP]
    by_cases hx : priGt x b.2 = true
    · rw [if_pos hx]
      obtain ⟨P, K⟩ := ih (i, x) (i + 1) (by omega)
      constructor
      · rcases P with hP | ⟨j, hj, h1, h2⟩
        · exact Or.inr ⟨0, by simp, by simp [hP], by simp [hP]⟩
        · exact Or.inr ⟨j + 1, by simp; omega, by omega, by simpa using h2⟩
      · intro hb hall
        have hxreps : 1 ≤ x.reps := hall x (List.mem_cons_self x xs)
        have htl : ∀ s ∈ xs, 1 ≤ s.reps := fun s hs => hall s (List.mem_cons_of_mem x hs)
        obtain ⟨K1, K2, K3, K4⟩ := K hxreps htl
        have hklt : keyQ b.2 < keyQ x := (priGt_iff_keyQ x b.2 hxreps hb).mp hx
        refine ⟨le_of_lt (lt_of_lt_of_le hklt K1), ?_, fun _ => lt_of_lt_of_le hklt K1, ?_⟩
        · intro j hj
          cases j with
          | zero => simpa using K1
          | succ j' => exact K2 j' (by simpa using hj)
        · intro j hj hlt
          cases j with
          | zero =>
            have : (scanMaxP (i, x) (i + 1) xs).1 ≠ i := by omega
            simpa using K3 this
          | succ j' =>
            have : (i + 1) + j' < (scanMaxP (i, x) (i + 1) xs).1 := by omega
            simpa using K4 j' (by simpa using hj) this
    · rw [if_neg hx]
      obtain ⟨P, K⟩ := ih b (i + 1) (by omega)
      constructor
      · rcases P with hP | ⟨j, hj, h1, h2⟩
        · exact Or.inl hP
        · exact Or.inr ⟨j + 1, by simp; omega, by omega, by simpa using h2⟩
      · intro hb hall
        have hxreps : 1 ≤ x.reps := hall x (List.mem_cons_self x xs)
        have htl : ∀ s ∈ xs, 1 ≤ s.reps := fun s hs => hall s (List.mem_cons_of_mem x hs)
        obtain ⟨K1, K2, K3, K4⟩ := K hb htl
        have hxle : keyQ x ≤ keyQ b.2 := by
          have hiff := priGt_iff_keyQ x b.2 hxreps hb
          have : ¬ keyQ b.2 < keyQ x := by
            intro hcon
            exact hx (hiff.mpr hcon)
          exact not_lt.mp this
        refine ⟨K1, ?_, K3, ?_⟩
        · intro j hj
          cases j with
          | zero => simpa using le_trans hxle K1
          | succ j' => exact K2 j' (by simpa using hj)
        · intro j hj hlt
          cases j with
          | zero =>
            have hne : (scanMaxP b (i + 1) xs).1 ≠ b.1 := by omega
            simpa using lt_of_le_of_lt hxle (K3 hne)
          | succ j' =>
            have : (i + 1) + j' < (scanMaxP b (i + 1) xs).1 := by omega
            simpa using K4 j' (by simpa using hj) this

theorem maxIndex_getD (l : List StateInfo) (hne : l ≠ []) :
    ∀ x xs, l = x :: xs →
      l.getD (maxIndex l) dState = (scanMaxP (0, x) 1 xs).2 := by
  intro x xs hl
  subst hl
  obtain ⟨P, _⟩ := scanMaxP_spec xs (0, x) 1 (by omega)
  rcases P with hP | ⟨j, hj, h1, h2⟩
  · simp [maxIndex, hP]
  · simp only [maxIndex, h1, h2]
    rw [Nat.add_comm 1 j]
    simp

theorem maxIndex_spec (l : List StateInfo) (hne : l ≠ []) (hreps : ∀ s ∈ l, 1 ≤ s.reps) :
    (∀ j, j < l.length → keyQ (l.getD j dState) ≤ keyQ (l.getD (maxIndex l) dState))
  ∧ (∀ j, j < maxIndex l → keyQ (l.getD j dState) < keyQ (l.getD (maxIndex l) dState)) := by
  cases l with
  | nil => exact absurd rfl hne
  | cons x xs =>
    have hget := maxIndex_getD (x :: xs) hne x xs rfl
    obtain ⟨P, K⟩ := scanMaxP_spec xs (0, x) 1 (by omega)
    have hxreps : 1 ≤ x.reps := hreps x (List.mem_cons_self x xs)
    have htl : ∀ s ∈ xs, 1 ≤ s.reps := fun s hs => hreps s (List.mem_cons_of_mem x hs)
    obtain ⟨K1, K2, K3, K4⟩ := K hxreps htl
    rw [hget]
    constructor
    · intro j hj
      cases j with
      | zero => simpa using K1
      | succ j' => simpa using K2 j' (by simpa using hj)
    · intro j hj
      simp only [maxIndex] at hj
      cases j with
      | zero =>
        have : (scanMaxP (0, x) 1 xs).1 ≠ 0 := by omega
        simpa using K3 this
      | succ j' =>
        have h1j : 1 + j' < (scanMaxP (0, x) 1 xs).1 := by omega
        have hjlen : j' < xs.length := by
          have := scanMaxP_fst_lt xs (0, x) 1 (xs.length + 1) (by omega) (by omega)
          omega
        simpa using K4 j' hjlen h1j

theorem scanMaxP_congr : ∀ (xs ys : List StateInfo), xs.length = ys.length →
    (∀ j, j < xs.length → keyQ (xs.getD j dState) = keyQ (ys.getD j dState)) →
    (∀ s ∈ xs, 1 ≤ s.reps) → (∀ s ∈ ys, 1 ≤ s.reps) →
    ∀ (b c : Nat × StateInfo) (i : Nat), b.1 = c.1 → keyQ b.2 = keyQ c.2 →
      1 ≤ b.2.reps → 1 ≤ c.2.reps →
      (scanMaxP b i xs).1 = (scanMaxP c i ys).1
  | [], [], _, _, _, _ => by
    intro b c i h1 _ _ _
    simpa [scanMaxP] using h1
  | [], y :: ys, hlen, _, _, _ => by simp at hlen
  | x :: xs, [], hlen, _, _, _ => by simp at hlen
  | x :: xs, y :: ys, hlen, hkey, hrx, hry => by
    intro b c i h1 h2 hb hc
    have hxreps : 1 ≤ x.reps := hrx x (List.mem_cons_self x xs)
    have hyreps : 1 ≤ y.reps := hry y (List.mem_cons_self y ys)
    have hxy : keyQ x = keyQ y := by simpa using hkey 0 (by simp)
    have hcond : priGt x b.2 = priGt y c.2 := by
      by_cases hgt : priGt x b.2 = true
      · have := (priGt_iff_keyQ x b.2 hxreps hb).mp hgt
        rw [hgt, Eq.symm ((priGt_iff_keyQ y c.2 hyreps hc).mpr (by rw [← hxy, ← h2]; exact this))]
      · have hgt' : priGt y c.2 ≠ true := by
          intro hcon
          have := (priGt_iff_keyQ y c.2 hyreps hc).mp hcon
          exact hgt ((priGt_iff_keyQ x b.2 hxreps hb).mpr (by rw [hxy, h2]; exact this))
        simp only [Bool.not_eq_true] at hgt hgt'
        rw [hgt, hgt']
    simp only [scanMaxP, hcond]
    by_cases hgt : priGt y c.2 = true
    · rw [hgt]
      simp only [if_true]
      exact scanMaxP_congr xs ys (by simpa using hlen)
        (fun j hj => by simpa using hkey (j + 1) (by simpa using hj))
        (fun s hs => hrx s (List.mem_cons_of_mem x hs))
        (fun s hs => hry s (List.mem_cons_of_mem y hs))
        (i, x) (i, y) (i + 1) rfl hxy hxreps hyreps
    · simp only [Bool.not_eq_true] at hgt
      rw [hgt]
      simp only [Bool.false_eq_true, if_false]
      exact scanMaxP_congr xs ys (by simpa using hlen)
        (fun j hj => by simpa using hkey (j + 1) (by simpa using hj))
        (fun s hs => hrx s (List.mem_cons_of_mem x hs))
        (fun s hs => hry s (List.mem_cons_of_mem y hs))
        b c (i + 1) h1 h2 hb hc

theorem maxIndex_congr (l' l : List StateInfo) (hlen : l'.length = l.length)
    (hkey : ∀ j, j < l.length → keyQ (l'.getD j dState) = keyQ (l.getD j dState))
    (hr : ∀ s ∈ l, 1 ≤ s.reps) (hr' : ∀ s ∈ l', 1 ≤ s.reps) :
    maxIndex l' = maxIndex l := by
  cases l with
  | nil =>
    cases l' with
    | nil => rfl
    | cons y ys => simp at hlen
  | cons x xs =>
    cases l' with
    | nil => simp at hlen
    | cons y ys =>
      simp only [maxIndex]
      exact scanMaxP_congr ys xs (by simpa using hlen)
        (fun j hj => by
          have hjx : j + 1 < (x :: xs).length := by simp at hlen ⊢; omega
          simpa using hkey (j + 1) hjx)
        (fun s hs => hr' s (List.mem_cons_of_mem y hs))
        (fun s hs => hr s (List.mem_cons_of_mem x hs))
        (0, y) (0, x) 1 rfl (by simpa using hkey 0 (by simp))
        (hr' y (List.mem_cons_self y ys)) (hr x (List.mem_cons_self x xs))

/-! ### Maximum and minimum of nonempty rational lists -/

theorem foldl_max_mem : ∀ (xs : List Rat) (a : Rat), xs.foldl max a ∈ a :: xs
  | [], a => by simp
  | x :: xs, a => by
    have ih := foldl_max_mem xs (max a x)
    simp only [List.foldl_cons]
    rcases List.mem_cons.mp ih with h | h
    · rcases max_choice a x with hm | hm
      · rw [h, hm]
        exact List.mem_cons_self _ _
      · rw [h, hm]
        exact List.mem_cons_of_mem _ (List.mem_cons_self _ _)
    · exact List.mem_cons_of_mem _ (List.mem_cons_of_mem _ h)

theorem le_foldl_max : ∀ (xs : List Rat) (a : Rat),
    a ≤ xs.foldl max a ∧ ∀ x ∈ xs, x ≤ xs.foldl max a
  | [], a => ⟨le_refl a, by simp⟩
  | x :: xs, a => by
    obtain ⟨h1, h2⟩ := le_foldl_max xs (max a x)
    simp only [List.foldl_cons]
    refine ⟨le_trans (le_max_left a x) h1, ?_⟩
    intro y hy
    rcases List.mem_cons.mp hy with h | h
    · rw [h]
      exact le_trans (le_max_right a x) h1
    · exact h2 y h

theorem foldl_min_mem : ∀ (xs : List Rat) (a : Rat), xs.foldl min a ∈ a :: xs
  | [], a => by simp
  | x :: xs, a => by
    have ih := foldl_min_mem xs (min a x)
    simp only [List.foldl_cons]
    rcases List.mem_cons.mp ih with h | h
    · rcases min_choice a x with hm | hm
      · rw [h, hm]
        exact List.mem_cons_self _ _
      · rw [h, hm]
        exact List.mem_cons_of_mem _ (List.mem_cons_self _ _)
    · exact List.mem_cons_of_mem _ (List.mem_cons_of_mem _ h)

theorem foldl_min_le : ∀ (xs : List Rat) (a : Rat),
    xs.foldl min a ≤ a ∧ ∀ x ∈ xs, xs.foldl min a ≤ x
  | [], a => ⟨le_refl a, by simp⟩
  | x :: xs, a => by
    obtain ⟨h1, h2⟩ := foldl_min_le xs (min a x)
    simp only [List.foldl_cons]
    refine ⟨le_trans h1 (min_le_left a x), ?_⟩
    intro y hy
    rcases List.mem_cons.mp hy with h | h
    · rw [h]
      exact le_trans h1 (min_le_right a x)
    · exact h2 y h

theorem listMax_spec (xs : List Rat) (h : xs ≠ []) :
    listMax xs ∈ xs ∧ ∀ x ∈ xs, x ≤ listMax xs := by
  cases xs with
  | nil => exact absurd rfl h
  | cons x xs =>
    obtain ⟨h1, h2⟩ := le_foldl_max xs x
    exact ⟨foldl_max_mem xs x, by
      intro y hy
      rcases List.mem_cons.mp hy with hh | hh
      · exact hh ▸ h1
      · exact h2 y hh⟩

theorem listMin_spec (xs : List Rat) (h : xs ≠ []) :
    listMin xs ∈ xs ∧ ∀ x ∈ xs, listMin xs ≤ x := by
  cases xs with
  | nil => exact absurd rfl h
  | cons x xs =>
    obtain ⟨h1, h2⟩ := foldl_min_le xs x
    exact ⟨foldl_min_mem xs x, by
      intro y hy
      rcases List.mem_cons.mp hy with hh | hh
      · exact hh ▸ h1
      · exact h2 y hh⟩

/-! ### Logarithms and products for the geometric mean -/

theorem prod_map_cast_pos : ∀ xs : List Rat, (∀ x ∈ xs, 0 < x) →
    (0 : Real) < (xs.map (fun q : Rat => (q : Real))).prod
  | [], _ => by simp
  | x :: xs, h => by
    have hx : (0 : Real) < (x : Real) := by exact_mod_cast h x (List.mem_cons_self x xs)
    simp only [List.map_cons, List.prod_cons]
    exact mul_pos hx (prod_map_cast_pos xs (fun y hy => h y (List.mem_cons_of_mem x hy)))

theorem sum_map_log : ∀ xs : List Rat, (∀ x ∈ xs, 0 < x) →
    (xs.map (fun q : Rat => Real.log ((q : Real)))).sum
      = Real.log ((xs.map (fun q : Rat => (q : Real))).prod)
  | [], _ => by simp
  | x :: xs, h => by
    have hx : (0 : Real) < (x : Real) := by exact_mod_cast h x (List.mem_cons_self x xs)
    have htl : ∀ y ∈ xs, (0 : Rat) < y := fun y hy => h y (List.mem_cons_of_mem x hy)
    have hprod := prod_map_cast_pos xs htl
    simp only [List.map_cons, List.sum_cons, List.prod_cons]
    rw [sum_map_log xs htl, ← Real.log_mul (ne_of_gt hx) (ne_of_gt hprod)]

theorem geoMeanVal_eq_root (xs : List Rat) (hpos : ∀ x ∈ xs, 0 < x) :
    geoMeanVal xs
      = ((xs.map (fun q : Rat => (q : Real))).prod) ^ ((1 : Real) / (xs.length : Real)) := by
  unfold geoMeanVal
  rw [sum_map_log xs hpos, Real.rpow_def_of_pos (prod_map_cast_pos xs hpos), mul_one_div]

/-! ### Elements of the post-step registry -/

theorem mem_phaseAB (l : List StateInfo) (w : StateInfo) (hw : w ∈ phaseAB l) :
    ∃ v ∈ l, w = computeDerived (applyPending v) := by
  unfold phaseAB phaseB phaseA at hw
  rcases List.mem_map.mp hw with ⟨u, hu, rfl⟩
  rcases List.mem_map.mp hu with ⟨v, hv, rfl⟩
  exact ⟨v, hv, rfl⟩

theorem animateStep_elem (l : List StateInfo) (s : StateInfo) (hs : s ∈ animateStep l) :
    s.pop_per_rep = (s.pop : Rat) / (s.reps : Rat) ∧
      ∃ t ∈ l, s.pop = t.pop ∧ t.reps ≤ s.reps := by
  unfold animateStep at hs
  have key : ∀ w, w ∈ phaseAB l →
      w.pop_per_rep = (w.pop : Rat) / (w.reps : Rat) ∧
        ∃ t ∈ l, w.pop = t.pop ∧ t.reps ≤ w.reps := by
    intro w hw
    rcases mem_phaseAB l w hw with ⟨v, hv, rfl⟩
    refine ⟨by simp [computeDerived], v, hv, ?_, ?_⟩
    · simp [computeDerived_pop, applyPending_pop]
    · simp only [computeDerived_reps]
      exact applyPending_reps_le v
  rcases mem_setMaxPri _ _ _ hs with h | ⟨t, ht, rfl⟩
  · exact key s h
  · obtain ⟨k1, t0, ht0, k2, k3⟩ := key t ht
    exact ⟨k1, t0, ht0, k2, k3⟩

/-! ### The step is a function of the core registry fields only -/

theorem computeDerived_eq_of_coreEq (a b : StateInfo) (h : coreEq a b) :
    computeDerived a = computeDerived b := by
  obtain ⟨h1, h2, h3, h4⟩ := h
  cases a
  cases b
  simp only at h1 h2 h3 h4
  simp [computeDerived, h1, h2, h3, h4]

theorem coreEq_applyPending (a b : StateInfo) (h : coreEq a b) :
    coreEq (applyPending a) (applyPending b) := by
  obtain ⟨h1, h2, h3, h4⟩ := h
  unfold applyPending
  rw [h4]
  by_cases hm : b.max_pri = true
  · simp [hm, coreEq, h1, h2, h3]
  · have : b.max_pri = false := by simpa using hm
    simp [this, coreEq, h1, h2, h3, h4]

theorem phaseAB_eq_of_coreEq (l1 l2 : List StateInfo) (h : List.Forall₂ coreEq l1 l2) :
    phaseAB l1 = phaseAB l2 := by
  unfold phaseAB phaseB phaseA
  induction h with
  | nil => rfl
  | @cons a b l1' l2' hab htl ih =>
    simp only [List.map_cons, List.cons.injEq]
    exact ⟨computeDerived_eq_of_coreEq _ _ (coreEq_applyPending _ _ hab), ih⟩

theorem animateStep_eq_of_coreEq (l1 l2 : List StateInfo) (h : List.Forall₂ coreEq l1 l2) :
    animateStep l1 = animateStep l2 := by
  unfold animateStep
  rw [phaseAB_eq_of_coreEq l1 l2 h]

/-! ### Seat totals across a run -/

theorem sumReps_eq_length : ∀ l : List StateInfo, (∀ s ∈ l, s.reps = 1) →
    sumReps l = l.length
  | [], _ => rfl
  | x :: xs, h => by
    have ih := sumReps_eq_length xs (fun s hs => h s (List.mem_cons_of_mem x hs))
    simp only [sumReps, List.map_cons, List.sum_cons, List.length_cons] at ih ⊢
    rw [h x (List.mem_cons_self x xs)]
    omega

theorem countFlags_zero_of_noflags (l : List StateInfo) (h : ∀ s ∈ l, s.max_pri = false) :
    countFlags l = 0 := by
  unfold countFlags
  rw [List.countP_eq_zero]
  intro s hs
  simp [h s hs]

theorem animateStep_sum_count (l : List StateInfo) (hne : l ≠ []) :
    sumReps (animateStep l) = sumReps l + countFlags l ∧ countFlags (animateStep l) = 1 := by
  have hlp : 0 < (phaseAB l).length := by
    rw [phaseAB_length]
    exact List.length_pos.mpr hne
  constructor
  · unfold animateStep phaseAB
    rw [sumReps_setMaxPri, sumReps_phaseB, sumReps_phaseA]
  · unfold animateStep
    apply countFlags_setMaxPri
    · exact maxIndex_lt_length _ (List.length_pos.mp hlp)
    · unfold phaseAB
      rw [countFlags_phaseB, countFlags_phaseA]

theorem runSteps_ne_nil (l : List StateInfo) (hne : l ≠ []) (k : Nat) :
    runSteps l k ≠ [] := by
  have hlen := runSteps_length l k
  intro hcon
  rw [hcon] at hlen
  exact hne (List.eq_nil_of_length_eq_zero hlen.symm)

theorem runSteps_sum_count (l : List StateInfo) (hne : l ≠ [])
    (hinit : ∀ s ∈ l, s.reps = 1 ∧ s.max_pri = false) :
    ∀ k, sumReps (runSteps l (k + 1)) = l.length + k ∧ countFlags (runSteps l (k + 1)) = 1
  | 0 => by
    have h1 := animateStep_sum_count l hne
    have hsum := sumReps_eq_length l (fun s hs => (hinit s hs).1)
    have hcnt := countFlags_zero_of_noflags l (fun s hs => (hinit s hs).2)
    refine ⟨?_, h1.2⟩
    rw [show runSteps l 1 = animateStep l from rfl, h1.1, hsum, hcnt]
  | k + 1 => by
    have ih := runSteps_sum_count l hne hinit k
    have hne2 : runSteps l (k + 1) ≠ [] := runSteps_ne_nil l hne (k + 1)
    have h1 := animateStep_sum_count (runSteps l (k + 1)) hne2
    rw [show runSteps l (k + 2) = animateStep (runSteps l (k + 1)) from rfl]
    refine ⟨?_, h1.2⟩
    rw [h1.1, ih.1, ih.2]
    omega

/-! ### Remaining small helpers -/

theorem getD_oob : ∀ (l : List StateInfo) (j : Nat), l.length ≤ j → l.getD j dState = dState
  | [], _, _ => rfl
  | x :: xs, 0, h => by simp at h
  | x :: xs, j + 1, h => getD_oob xs j (by simpa using h)

theorem geoMeanOk_iff (ys : List Rat) (hne : ys ≠ []) :
    geoMeanOk ys = true ↔ ∀ y ∈ ys, 0 < y := by
  unfold geoMeanOk
  rw [Bool.and_eq_true, List.all_eq_true]
  have hemp : (!ys.isEmpty) = true := by simpa using hne
  constructor
  · rintro ⟨_, h2⟩ x hx
    simpa using h2 x hx
  · intro h
    exact ⟨hemp, fun x hx => by simpa using h x hx⟩

theorem runSteps_eq_of_coreEq (l1 l2 : List StateInfo) (h : List.Forall₂ coreEq l1 l2) :
    ∀ m, runSteps l1 (m + 1) = runSteps l2 (m + 1)
  | 0 => animateStep_eq_of_coreEq l1 l2 h
  | m + 1 => by
    rw [show runSteps l1 (m + 1 + 1) = animateStep (runSteps l1 (m + 1)) from rfl,
      show runSteps l2 (m + 1 + 1) = animateStep (runSteps l2 (m + 1)) from rfl,
      runSteps_eq_of_coreEq l1 l2 h m]

/-! ### The claims -/

/-- Claim C1: for every entity, the priority value computed by the engine's
step equals `pop / sqrt(seats * (seats + 1))`, where `seats` is the entity's
seat count at the moment the priority loop runs: the count as of the end of
the previous step (the pending award having been applied), which is 1 for
every entity on the first step from a fresh registry. -/
theorem claim_C1_priority_formula (l : List StateInfo) (i : Nat) (hi : i < l.length) :
    priority ((phaseAB l).getD i dState)
      = (((phaseAB l).getD i dState).pop : Real) /
          Real.sqrt ((((phaseAB l).getD i dState).reps : Real)
            * ((((phaseAB l).getD i dState).reps : Real) + 1))
  ∧ ((∀ s ∈ l, s.reps = 1 ∧ s.max_pri = false) →
      ((phaseAB l).getD i dState).reps = 1) := by
  constructor
  · exact priority_eq_div _
  · intro hinit
    have heq : (phaseAB l).getD i dState = computeDerived (applyPending (l.getD i dState)) := by
      unfold phaseAB
      rw [phaseB_getD, phaseA_getD]
    have hmem := getD_mem l i hi
    rw [heq, computeDerived_reps, applyPending_of_not_flag _ (hinit _ hmem).2]
    exact (hinit _ hmem).1

/-- Claim C1 witness: on the fresh two-entity registry, entity 0 enters the
first step with one seat. -/
theorem claim_C1_priority_formula_witness : ((phaseAB init2).getD 0 dState).reps = 1 :=
  (claim_C1_priority_formula init2 0 (by decide)).2 (by decide)

/-- Claim C2: on every registry state (at least one seat per entity) the
selection index is in range, no entity has strictly greater priority than the
selected one, every entity with a lower index than the selected one has
strictly smaller priority (so among equal maxima the lowest index wins, a
first-maximum-wins scan), and the selected index is a function of the priority
sequence alone, so population is never consulted as a secondary tie-break
key. -/
theorem claim_C2_tiebreak (l : List StateInfo) (hne : l ≠ [])
    (hreps : ∀ s ∈ l, 1 ≤ s.reps) :
    maxIndex l < l.length
  ∧ (∀ j, j < l.length →
      priority (l.getD j dState) ≤ priority (l.getD (maxIndex l) dState))
  ∧ (∀ j, j < maxIndex l →
      priority (l.getD j dState) < priority (l.getD (maxIndex l) dState))
  ∧ (∀ l' : List StateInfo, l'.length = l.length → (∀ s ∈ l', 1 ≤ s.reps) →
      (∀ j, j < l.length → priority (l'.getD j dState) = priority (l.getD j dState)) →
      maxIndex l' = maxIndex l) := by
  have hlt := maxIndex_lt_length l hne
  obtain ⟨K1, K2⟩ := maxIndex_spec l hne hreps
  have hmreps : 1 ≤ (l.getD (maxIndex l) dState).reps := hreps _ (getD_mem l _ hlt)
  refine ⟨hlt, ?_, ?_, ?_⟩
  · intro j hj
    exact (keyQ_le_iff_priority_le (l.getD (maxIndex l) dState) (l.getD j dState)
      hmreps (hreps _ (getD_mem l j hj))).mp (K1 j hj)
  · intro j hj
    have hjlen : j < l.length := lt_trans hj hlt
    exact (keyQ_lt_iff_priority_lt (l.getD (maxIndex l) dState) (l.getD j dState)
      hmreps (hreps _ (getD_mem l j hjlen))).mp (K2 j hj)
  · intro l' hlen hreps' hpri
    refine maxIndex_congr l' l hlen ?_ hreps hreps'
    intro j hj
    exact keyQ_eq_of_priority_eq _ _ (hpri j hj)

/-- Claim C2 witness: on two entities of equal population (priorities tie) the
selection is index 0, the lowest. -/
theorem claim_C2_tiebreak_witness : maxIndex tie2 < tie2.length :=
  (claim_C2_tiebreak tie2 (by decide) (by decide)).1

/-- Claim C3 counterexample: with the two-entity registry, after the engine
has executed step 0 the stored seat counts sum to 2 = n + k, not
n + k + 1 = 3: the seat selected in a step is granted only at the start of
the following step. -/
theorem claim_C3_cex :
    init2.length = 2 ∧ sumReps (runSteps init2 (0 + 1)) = 2 ∧ 2 ≠ 2 + 0 + 1 :=
  ⟨rfl, by decide, by decide⟩

/-- Claim C3 amended: after the engine has executed steps 0 through k from a
fresh registry of n entities, the stored seat counts sum to n + k and exactly
one entity carries the max_pri flag, so counting that one pending seat award
the total is n + k + 1. -/
theorem claim_C3_amended (l : List StateInfo) (k : Nat) (hne : l ≠ [])
    (hinit : ∀ s ∈ l, s.reps = 1 ∧ s.max_pri = false) :
    sumReps (runSteps l (k + 1)) = l.length + k
  ∧ countFlags (runSteps l (k + 1)) = 1
  ∧ sumReps (runSteps l (k + 1)) + countFlags (runSteps l (k + 1)) = l.length + k + 1 := by
  obtain ⟨h1, h2⟩ := runSteps_sum_count l hne hinit k
  exact ⟨h1, h2, by omega⟩

/-- Claim C3 amended witness: concrete instance on the two-entity registry at
step 0. -/
theorem claim_C3_amended_witness : sumReps (runSteps init2 (0 + 1)) = init2.length + 0 :=
  (claim_C3_amended init2 0 (by decide) (by decide)).1

/-- Claim C4 counterexample: on A(200), B(100), after running exactly 3 steps
B's stored seat count is 1, not 2 as the claim states (B's step-2 award is
still pending in the max_pri flag). -/
theorem claim_C4_cex : ((runSteps init2 3).getD 1 dState).reps = 1 ∧ (1 : Nat) ≠ 2 :=
  ⟨by decide, by decide⟩

/-- Claim C4 amended: running exactly 3 steps on A(200), B(100) selects A at
step 0, A at step 1 and B at step 2; afterwards A holds 3 seats while B still
holds 1 with its max_pri flag set, and B's second seat (A.seats = 3,
B.seats = 2) materializes when the pending award is applied at the start of
the next call. -/
theorem claim_C4_amended :
    maxIndex (phaseAB (runSteps init2 0)) = 0
  ∧ maxIndex (phaseAB (runSteps init2 1)) = 0
  ∧ maxIndex (phaseAB (runSteps init2 2)) = 1
  ∧ ((runSteps init2 3).getD 0 dState).reps = 3
  ∧ ((runSteps init2 3).getD 1 dState).reps = 1
  ∧ ((runSteps init2 3).getD 1 dState).max_pri = true
  ∧ ((phaseA (runSteps init2 3)).getD 0 dState).reps = 3
  ∧ ((phaseA (runSteps init2 3)).getD 1 dState).reps = 2 := by
  decide

/-- Claim C5 counterexample: in the snapshot of step 0 on A(200), B(100), A is
the entity just awarded a seat (selection index 0), yet its reported
population-per-seat is 200 = 200/1, computed from its pre-increment seat
count, not 100 = 200/2 from the post-increment count. -/
theorem claim_C5_cex :
    maxIndex (phaseAB init2) = 0
  ∧ ((runSteps init2 1).getD 0 dState).pop_per_rep = 200
  ∧ (200 : Rat) ≠ 200 / 2 := by
  refine ⟨by decide, ?_, by norm_num⟩
  norm_num [runSteps, animateStep, phaseAB, phaseB, phaseA, init2, applyPending,
    computeDerived, maxIndex, scanMaxP, priGt, setMaxPri, dState]

/-- Claim C5 amended: in every emitted snapshot each entity's
population-per-seat equals its population divided by the seat count that
snapshot shows, and those seat counts are the ones after the pending award of
the previous step is applied: post-increment for the entity awarded in the
previous step, unchanged (pre-increment) for the entity newly selected in the
current step. -/
theorem claim_C5_amended (l : List StateInfo) :
    (∀ s ∈ animateStep l, s.pop_per_rep = (s.pop : Rat) / (s.reps : Rat))
  ∧ (∀ i : Nat, ((animateStep l).getD i dState).reps = ((phaseA l).getD i dState).reps) := by
  constructor
  · intro s hs
    exact (animateStep_elem l s hs).1
  · intro i
    unfold animateStep
    rw [setMaxPri_getD_reps]
    unfold phaseAB
    rw [phaseB_getD, computeDerived_reps]

/-- Claim C5 amended witness: concrete instance on the two-entity registry. -/
theorem claim_C5_amended_witness :
    ((animateStep init2).getD 0 dState).reps = ((phaseA init2).getD 0 dState).reps :=
  (claim_C5_amended init2).2 0

/-- Claim C6: for every snapshot whose population-per-seat values are xs, the
statistics are the arithmetic mean sum/n, the population standard deviation
sqrt(sum((xi - mean)^2)/n) (dividing by N, not N-1), and the range max - min,
where max and min are the greatest and least values occurring in xs. -/
theorem claim_C6_stats (l : List StateInfo) (xs : List Rat)
    (hxs : xs = extract_pop_per_rep l) (hne : l ≠ []) :
    np_mean xs = xs.sum / (xs.length : Rat)
  ∧ np_std xs
      = Real.sqrt (((xs.map (fun x => (x - np_mean xs) ^ 2)).sum / (xs.length : Rat) : Rat))
  ∧ range_stat xs = listMax xs - listMin xs
  ∧ listMax xs ∈ xs ∧ (∀ x ∈ xs, x ≤ listMax xs)
  ∧ listMin xs ∈ xs ∧ (∀ x ∈ xs, listMin xs ≤ x) := by
  have hxne : xs ≠ [] := by
    rw [hxs]
    unfold extract_pop_per_rep
    simp only [ne_eq, List.map_eq_nil]
    exact hne
  obtain ⟨hM1, hM2⟩ := listMax_spec xs hxne
  obtain ⟨hm1, hm2⟩ := listMin_spec xs hxne
  refine ⟨rfl, ?_, rfl, hM1, hM2, hm1, hm2⟩
  simp only [np_std, np_mean, List.length_map]

/-- Claim C6 witness: concrete instance on the two-entity registry. -/
theorem claim_C6_stats_witness :
    np_mean (extract_pop_per_rep init2)
      = (extract_pop_per_rep init2).sum / ((extract_pop_per_rep init2).length : Rat) :=
  (claim_C6_stats init2 (extract_pop_per_rep init2) rfl (by decide)).1

/-- Claim C7: over a nonempty snapshot the geometric mean fails with
DomainError exactly when some population-per-seat value is ≤ 0; on all
positive values it returns the N-th root of the product of the values; and on
the snapshot produced by a step from a registry of positive populations with
at least one seat each, the error can never fire (the check is defensive). -/
theorem claim_C7_geo_mean (xs : List Rat) (hne : xs ≠ []) :
    (geometric_mean xs = Except.error "DomainError" ↔ ∃ x ∈ xs, x ≤ 0)
  ∧ ((∀ x ∈ xs, 0 < x) →
      geometric_mean xs
        = Except.ok (((xs.map (fun q : Rat => (q : Real))).prod)
            ^ ((1 : Real) / (xs.length : Real))))
  ∧ (∀ l : List StateInfo, l ≠ [] → (∀ s ∈ l, 0 < s.pop) → (∀ s ∈ l, 1 ≤ s.reps) →
      geometric_mean (extract_pop_per_rep (animateStep l)) ≠ Except.error "DomainError") := by
  refine ⟨?_, ?_, ?_⟩
  · by_cases hall : ∀ x ∈ xs, 0 < x
    · constructor
      · intro herr
        unfold geometric_mean at herr
        rw [if_pos ((geoMeanOk_iff xs hne).mpr hall)] at herr
        exact absurd herr (by simp)
      · rintro ⟨x, hx, hxle⟩
        exact absurd (hall x hx) (not_lt.mpr hxle)
    · constructor
      · intro _
        push_neg at hall
        obtain ⟨x, hx, hnl⟩ := hall
        exact ⟨x, hx, hnl⟩
      · intro _
        unfold geometric_mean
        rw [if_neg (fun hcon => hall ((geoMeanOk_iff xs hne).mp hcon))]
  · intro hall
    unfold geometric_mean
    rw [if_pos ((geoMeanOk_iff xs hne).mpr hall), geoMeanVal_eq_root xs hall]
  · intro l hlne hpop hreps herr
    have hys : ∀ y ∈ extract_pop_per_rep (animateStep l), 0 < y := by
      intro y hy
      rcases List.mem_map.mp hy with ⟨s, hs, rfl⟩
      obtain ⟨hppr, t, ht, hpop_eq, hreps_le⟩ := animateStep_elem l s hs
      rw [hppr]
      apply div_pos
      · have ht0 : 0 < t.pop := hpop t ht
        rw [hpop_eq]
        exact_mod_cast ht0
      · have hr1 : 1 ≤ s.reps := le_trans (hreps t ht) hreps_le
        exact_mod_cast Nat.lt_of_lt_of_le Nat.zero_lt_one hr1
    have hysne : extract_pop_per_rep (animateStep l) ≠ [] := by
      unfold extract_pop_per_rep
      simp only [ne_eq, List.map_eq_nil]
      have hlen := animateStep_length l
      intro hcon
      rw [hcon] at hlen
      exact hlne (List.eq_nil_of_length_eq_zero hlen.symm)
    unfold geometric_mean at herr
    rw [if_pos ((geoMeanOk_iff _ hysne).mpr hys)] at herr
    exact absurd herr (by simp)

/-- Claim C7 witness: on the data [1, 2] the error fires exactly when some
value is non-positive, which is not the case here. -/
theorem claim_C7_geo_mean_witness :
    geometric_mean [(1 : Rat), 2] = Except.error "DomainError"
      ↔ ∃ x ∈ [(1 : Rat), 2], x ≤ 0 :=
  (claim_C7_geo_mean [1, 2] (by simp)).1

/-- Claim C8: the engine is deterministic: the step transition is a function
of the registry state alone (name, population, seats, pending flag: the only
stored field it does not read, pop_per_rep, is overwritten before any read),
so two runs from registries agreeing on those fields, in particular two runs
of the same input, produce identical states after every step. -/
theorem claim_C8_determinism (l1 l2 : List StateInfo) (k : Nat)
    (h : List.Forall₂ coreEq l1 l2) (hk : 1 ≤ k) :
    runSteps l1 k = runSteps l2 k := by
  obtain ⟨m, rfl⟩ : ∃ m, k = m + 1 := ⟨k - 1, by omega⟩
  exact runSteps_eq_of_coreEq l1 l2 h m

/-- Claim C8 witness: two registries differing only in the stale pop_per_rep
field produce the same state after one step. -/
theorem claim_C8_determinism_witness :
    runSteps [{ name := "A", pop := 200, reps := 1, pop_per_rep := 999, max_pri := false }] 1
      = runSteps [{ name := "A", pop := 200, reps := 1, pop_per_rep := 0, max_pri := false }] 1 :=
  claim_C8_determinism _ _ 1
    (List.Forall₂.cons ⟨rfl, rfl, rfl, rfl⟩ List.Forall₂.nil) (by omega)

/-- Claim C9: registry initialization fails with InvalidInputError exactly
when the input sequence is empty or some population is ≤ 0 (so before any step
can run), and on success the registry has one entity per input entry, each
starting with one seat, a positive population, and no pending award. -/
theorem claim_C9_parse_states (entries : List (String × Int)) :
    (parse_states entries = Except.error "InvalidInputError" ↔
      entries = [] ∨ ∃ e ∈ entries, e.2 ≤ 0)
  ∧ (∀ l, parse_states entries = Except.ok l →
      l.length = entries.length ∧
        ∀ s ∈ l, s.reps = 1 ∧ 0 < s.pop ∧ s.max_pri = false) := by
  by_cases h1 : entries.isEmpty = true
  · have he : entries = [] := by simpa using h1
    unfold parse_states
    rw [if_pos h1]
    refine ⟨⟨fun _ => Or.inl he, fun _ => rfl⟩, ?_⟩
    intro l hl
    exact absurd hl (by simp)
  · by_cases h2 : entries.any (fun e => decide (e.2 ≤ 0)) = true
    · unfold parse_states
      rw [if_neg h1, if_pos h2]
      refine ⟨⟨fun _ => ?_, fun _ => rfl⟩, ?_⟩
      · rcases List.any_eq_true.mp h2 with ⟨e, he, hle⟩
        exact Or.inr ⟨e, he, by simpa using hle⟩
      · intro l hl
        exact absurd hl (by simp)
    · have hno : ∀ e ∈ entries, ¬ e.2 ≤ 0 := by
        intro e he hle
        exact h2 (List.any_eq_true.mpr ⟨e, he, by simpa using hle⟩)
      unfold parse_states
      rw [if_neg h1, if_neg h2]
      constructor
      · constructor
        · intro hcon
          exact absurd hcon (by simp)
        · rintro (rfl | ⟨e, he, hle⟩)
          · exact absurd rfl h1
          · exact absurd hle (hno e he)
      · intro l hl
        have hl2 : entries.map (fun e =>
            ({ name := e.1, pop := e.2.toNat, reps := 1, pop_per_rep := (e.2 : Rat),
               max_pri := false } : StateInfo)) = l := by
          exact Except.ok.inj hl
        subst hl2
        refine ⟨List.length_map _ _, ?_⟩
        intro s hs
        rcases List.mem_map.mp hs with ⟨e, he, rfl⟩
        refine ⟨rfl, ?_, rfl⟩
        have h3 : 0 < e.2 := not_le.mp (hno e he)
        show 0 < e.2.toNat
        omega

/-- Claim C9 witness: a valid one-entry input parses into a registry whose
single entity starts with one seat. -/
theorem claim_C9_parse_states_witness :
    ∀ s ∈ [({ name := "A", pop := 2, reps := 1, pop_per_rep := ((2 : Int) : Rat), max_pri := false } : StateInfo)],
      s.reps = 1 ∧ 0 < s.pop ∧ s.max_pri = false :=
  ((claim_C9_parse_states [("A", 2)]).2 _ rfl).2

/-- Claim C10: after every call of the step exactly one entity carries the
max_pri flag; when a step starts with exactly entity i flagged, the opening
loop of the step increments exactly entity i's seat count by one and clears
its flag, leaving every other entity's count unchanged; and the seat counts in
the emitted state are exactly those after the opening loop, so the entity
newly selected in this step still shows its pre-increment count. -/
theorem claim_C10_pending_award (l : List StateInfo) (i : Nat) (hi : i < l.length)
    (hne : l ≠ []) (hflag : (l.getD i dState).max_pri = true)
    (hothers : ∀ j, j < l.length → j ≠ i → (l.getD j dState).max_pri = false) :
    countFlags (animateStep l) = 1
  ∧ ((phaseA l).getD i dState).reps = (l.getD i dState).reps + 1
  ∧ ((phaseA l).getD i dState).max_pri = false
  ∧ (∀ j, j ≠ i → ((phaseA l).getD j dState).reps = (l.getD j dState).reps)
  ∧ (∀ j : Nat, ((animateStep l).getD j dState).reps = ((phaseA l).getD j dState).reps) := by
  refine ⟨(animateStep_sum_count l hne).2, ?_, ?_, ?_, ?_⟩
  · rw [phaseA_getD, applyPending_of_flag _ hflag]
  · rw [phaseA_getD, applyPending_max_pri]
  · intro j hj
    rw [phaseA_getD]
    by_cases hjl : j < l.length
    · rw [applyPending_of_not_flag _ (hothers j hjl hj)]
    · rw [getD_oob l j (by omega), applyPending_dState]
  · intro j
    unfold animateStep
    rw [setMaxPri_getD_reps]
    unfold phaseAB
    rw [phaseB_getD, computeDerived_reps]

/-- Claim C10 witness: a concrete two-entity state with entity 0 flagged. -/
theorem claim_C10_pending_award_witness :
    countFlags (animateStep
      [ { name := "A", pop := 200, reps := 2, pop_per_rep := 100, max_pri := true },
        { name := "B", pop := 100, reps := 1, pop_per_rep := 100, max_pri := false } ]) = 1 :=
  (claim_C10_pending_award
    [ { name := "A", pop := 200, reps := 2, pop_per_rep := 100, max_pri := true },
      { name := "B", pop := 100, reps := 1, pop_per_rep := 100, max_pri := false } ]
    0 (by decide) (by decide) (by decide) (by decide)).1
